import Mathlib

/-!
Shallow embedding of the MMCQ color quantization core (package `quantize`):
the functions `Spread`, `Partition`, `Average` and `Pixels` from the Go
source, modelled over `Nat` channel values (Go `uint8` casts become `% 256`
where they occur).  Go's in-place stable sort (`sort.SliceStable`) is
modelled by a stable key-based sort; the post-call content of the caller's
slice is modelled separately by `PartitionBuffer`.
-/

namespace Quantize

/-- Model of Go's `color.RGBA`: four 8-bit channels, carried as `Nat`. -/
structure Pixel where
  r : Nat
  g : Nat
  b : Nat
  a : Nat
deriving DecidableEq, Repr

/-- The six-accumulator state of `Spread`'s min/max loop. -/
structure SpreadState where
  minRed : Nat
  maxRed : Nat
  minGreen : Nat
  maxGreen : Nat
  minBlue : Nat
  maxBlue : Nat
deriving DecidableEq, Repr

/-- One iteration of `Spread`'s loop body: min/max each component. -/
def spreadStep (s : SpreadState) (pixel : Pixel) : SpreadState :=
  { minRed := min s.minRed pixel.r
    maxRed := max s.maxRed pixel.r
    minGreen := min s.minGreen pixel.g
    maxGreen := max s.maxGreen pixel.g
    minBlue := min s.minBlue pixel.b
    maxBlue := max s.maxBlue pixel.b }

/-- Model of `Spread`: the (max − min) delta of each component over all
pixels.  The Go code seeds the accumulators from `pixels[0]` and then folds
over the whole slice; subtraction cannot wrap because max ≥ min. -/
def Spread (pixels : List Pixel) : Nat × Nat × Nat :=
  match pixels with
  | [] => (0, 0, 0)
  | first :: _ =>
    let init : SpreadState :=
      ⟨first.r, first.r, first.g, first.g, first.b, first.b⟩
    let s := pixels.foldl spreadStep init
    (s.maxRed - s.minRed, s.maxGreen - s.minGreen, s.maxBlue - s.minBlue)

/-- The color component a `Partition` call sorts on. -/
inductive Channel where
  | red
  | green
  | blue
deriving DecidableEq, Repr

/-- Model of the `switch` in `Partition` that picks the comparison
component: red when `deltaR ≥ deltaG && deltaR ≥ deltaB`, else green when
`deltaG ≥ deltaR && deltaG ≥ deltaB`, else blue (the remaining case of the
Go `switch`, whose guard `deltaB ≥ deltaR && deltaB ≥ deltaG` is implied). -/
def selectChannel (deltaR deltaG deltaB : Nat) : Channel :=
  if deltaR ≥ deltaG ∧ deltaR ≥ deltaB then Channel.red
  else if deltaG ≥ deltaR ∧ deltaG ≥ deltaB then Channel.green
  else Channel.blue

/-- The component of a pixel read by the chosen `less` closure. -/
def channelValue : Channel → Pixel → Nat
  | Channel.red, pixel => pixel.r
  | Channel.green, pixel => pixel.g
  | Channel.blue, pixel => pixel.b

/-- The component `Partition pixels` sorts on. -/
def partitionAxis (pixels : List Pixel) : Channel :=
  selectChannel (Spread pixels).1 (Spread pixels).2.1 (Spread pixels).2.2

/-- The total preorder `key p ≤ key q` induced by a component key; this is
the non-strict counterpart of the Go `less` closure. -/
def keyLe (key : Pixel → Nat) (p q : Pixel) : Prop :=
  key p ≤ key q

instance (key : Pixel → Nat) : DecidableRel (keyLe key) :=
  fun p q => Nat.decLe (key p) (key q)

instance (key : Pixel → Nat) : IsTotal Pixel (keyLe key) :=
  ⟨fun p q => Nat.le_total (key p) (key q)⟩

instance (key : Pixel → Nat) : IsTrans Pixel (keyLe key) :=
  ⟨fun _ _ _ h h2 => Nat.le_trans h h2⟩

/-- Model of `sort.SliceStable(pixels, less)`: the unique stable ascending
reordering with respect to the component key, realised by insertion sort. -/
def sortPixels (key : Pixel → Nat) (pixels : List Pixel) : List Pixel :=
  List.insertionSort (keyLe key) pixels

/-- Model of the content of the caller's slice after `Partition` returns:
`sort.SliceStable` reorders the input slice in place (the empty case
returns before sorting). -/
def PartitionBuffer (pixels : List Pixel) : List Pixel :=
  if pixels.length = 0 then pixels
  else sortPixels (channelValue (partitionAxis pixels)) pixels

/-- Model of `Partition`: bisects the slice with respect to the component
with the largest spread, returning `pixels[:n/2]` and `pixels[n/2:]` of the
stably sorted slice. -/
def Partition (pixels : List Pixel) : List Pixel × List Pixel :=
  if pixels.length = 0 then ([], [])
  else
    let sorted := sortPixels (channelValue (partitionAxis pixels)) pixels
    (sorted.take (pixels.length / 2), sorted.drop (pixels.length / 2))

/-- The accumulation loop of `Average` for one component: Go sums into an
`int`, which cannot overflow for realistic inputs, so a `Nat` sum. -/
def channelTotal (key : Pixel → Nat) (pixels : List Pixel) : Nat :=
  pixels.foldl (fun acc pixel => acc + key pixel) 0

/-- Model of `Average`: the per-component integer mean, cast back to
`uint8` (hence `% 256`); the empty slice yields `{0, 0, 0, 0xFF}`. -/
def Average (pixels : List Pixel) : Pixel :=
  if pixels.length = 0 then ⟨0, 0, 0, 255⟩
  else
    ⟨channelTotal (fun p => p.r) pixels / pixels.length % 256,
     channelTotal (fun p => p.g) pixels / pixels.length % 256,
     channelTotal (fun p => p.b) pixels / pixels.length % 256,
     255⟩

/-- The body of the inner loop of `Pixels`:
`next = append(next, left, right)`. -/
def partitionAppend (next : List (List Pixel)) (partition : List Pixel) :
    List (List Pixel) :=
  next ++ [(Partition partition).1, (Partition partition).2]

/-- One generation step of `Pixels`: partition every current set and
collect the halves in order. -/
def partitionStep (partitions : List (List Pixel)) : List (List Pixel) :=
  partitions.foldl partitionAppend []

/-- Model of `Pixels`: run the generation loop `levels` times (a Go
`for iteration := 0; iteration < levels; ...` loop runs `max levels 0`
times, hence `Int.toNat`), then average every final partition. -/
def Pixels (pixels : List Pixel) (levels : Int) : List Pixel :=
  let partitions := Nat.iterate partitionStep levels.toNat [pixels]
  partitions.map Average

/-- The red/green/blue content of a pixel, forgetting alpha. -/
def rgb (pixel : Pixel) : Nat × Nat × Nat :=
  (pixel.r, pixel.g, pixel.b)

/-- A pixel with the same color components and alpha forced to `0xFF`. -/
def normAlpha (pixel : Pixel) : Pixel :=
  ⟨pixel.r, pixel.g, pixel.b, 255⟩

example : Spread [⟨105, 36, 168, 255⟩, ⟨106, 32, 171, 255⟩, ⟨107, 34, 165, 255⟩] =
    (2, 4, 6) := by decide

example : Average [⟨255, 0, 0, 255⟩, ⟨0, 255, 0, 255⟩, ⟨0, 0, 255, 255⟩] =
    ⟨85, 85, 85, 255⟩ := by decide

example :
    Partition
      [⟨21, 0, 0, 255⟩, ⟨15, 5, 5, 255⟩, ⟨10, 10, 10, 255⟩,
       ⟨5, 15, 15, 255⟩, ⟨0, 20, 20, 255⟩] =
    ([⟨0, 20, 20, 255⟩, ⟨5, 15, 15, 255⟩],
     [⟨10, 10, 10, 255⟩, ⟨15, 5, 5, 255⟩, ⟨21, 0, 0, 255⟩]) := by decide

example : Partition [⟨0, 0, 0, 255⟩] = ([], [⟨0, 0, 0, 255⟩]) := by decide

example : Pixels [⟨7, 3, 9, 255⟩] 0 = [⟨7, 3, 9, 255⟩] := by decide

/-! ### Structural lemmas about `Partition` and the generation loop -/

lemma partition_append_perm (P : List Pixel) :
    ((Partition P).1 ++ (Partition P).2).Perm P := by
  by_cases h : P.length = 0
  · have hP : P = [] := List.length_eq_zero.mp h
    subst hP
    rfl
  · simp only [Partition, if_neg h]
    rw [List.take_append_drop]
    exact List.perm_insertionSort _ P

lemma foldl_partitionAppend (gen : List (List Pixel))
    (acc : List (List Pixel)) :
    gen.foldl partitionAppend acc = acc ++ gen.foldl partitionAppend [] := by
  induction gen generalizing acc with
  | nil => simp
  | cons s t ih =>
    simp only [List.foldl_cons]
    rw [ih (partitionAppend acc s), ih (partitionAppend [] s)]
    simp [partitionAppend, List.append_assoc]

lemma partitionStep_cons (s : List Pixel) (gen : List (List Pixel)) :
    partitionStep (s :: gen) =
      (Partition s).1 :: (Partition s).2 :: partitionStep gen := by
  simp only [partitionStep, List.foldl_cons]
  rw [foldl_partitionAppend]
  simp [partitionAppend]

lemma length_partitionStep (gen : List (List Pixel)) :
    (partitionStep gen).length = 2 * gen.length := by
  induction gen with
  | nil => rfl
  | cons s t ih =>
    rw [partitionStep_cons]
    simp only [List.length_cons, ih]
    omega

lemma length_iterate_partitionStep (n : Nat) (gen : List (List Pixel)) :
    (Nat.iterate partitionStep n gen).length = 2 ^ n * gen.length := by
  induction n generalizing gen with
  | zero => simp
  | succ n ih =>
    rw [Function.iterate_succ_apply, ih, length_partitionStep]
    ring

lemma flatten_partitionStep_perm (gen : List (List Pixel)) :
    (partitionStep gen).flatten.Perm gen.flatten := by
  induction gen with
  | nil => rfl
  | cons s t ih =>
    rw [partitionStep_cons]
    simp only [List.flatten_cons]
    rw [← List.append_assoc]
    exact (partition_append_perm s).append ih

/-- Claim C1: for every pixel set P, `Partition P` returns two pixel sets whose
lengths sum to the length of P and whose concatenation is a permutation of
P. -/
theorem partition_sizes_and_perm (P : List Pixel) :
    (Partition P).1.length + (Partition P).2.length = P.length ∧
    ((Partition P).1 ++ (Partition P).2).Perm P := by
  have h := partition_append_perm P
  refine ⟨?_, h⟩
  have hlen := h.length_eq
  simpa using hlen

/-- Claim C2: for every pixel set P and natural number L of levels, the palette
returned by `Pixels P L` has length exactly `2 ^ L`. -/
theorem pixels_length_pow (P : List Pixel) (L : Nat) :
    (Pixels P (L : Int)).length = 2 ^ L := by
  simp [Pixels, length_iterate_partitionStep]

/-- Claim C7: at every generation n of the partition loop of `Pixels`, the total
pixel count over all partitions equals the input length, and the
concatenation of all partitions is a permutation of the input (the
partitions cover the input multiset without overlap). -/
theorem generations_cover (P : List Pixel) (n : Nat) :
    ((Nat.iterate partitionStep n [P]).map List.length).sum = P.length ∧
    (Nat.iterate partitionStep n [P]).flatten.Perm P := by
  have hflat : (Nat.iterate partitionStep n [P]).flatten.Perm P := by
    induction n with
    | zero => simp
    | succ n ih =>
      rw [Function.iterate_succ_apply']
      exact (flatten_partitionStep_perm _).trans ih
  refine ⟨?_, hflat⟩
  rw [← List.length_flatten]
  exact hflat.length_eq

/-- Claim C8: the quantize driver with zero levels returns exactly the
single-element palette `[Average P]`. -/
theorem pixels_zero_levels (P : List Pixel) :
    Pixels P 0 = [Average P] := rfl

/-- Claim C10: for every negative `levels`, the quantize driver does not fail:
the partition loop runs zero times and the result is `[Average P]`, of
length 1. -/
theorem pixels_negative_levels (P : List Pixel) (L : Int) (h : L < 0) :
    Pixels P L = [Average P] ∧ (Pixels P L).length = 1 := by
  have h0 : L.toNat = 0 := Int.toNat_of_nonpos h.le
  refine ⟨?_, ?_⟩ <;> simp [Pixels, h0]

theorem pixels_negative_levels_witness :
    Pixels [] (-1) = [Average []] ∧ (Pixels [] (-1)).length = 1 :=
  pixels_negative_levels [] (-1) (by decide)

/-! ### The in-place sort is caller-visible -/

/-- Claim C3 counterexample: `Partition` sorts the caller's slice in place, so
after the call the caller-visible input sequence is NOT always unchanged:
on `[(1,0,0), (0,0,0)]` the buffer ends reordered. -/
theorem partition_buffer_counterexample :
    PartitionBuffer [⟨1, 0, 0, 255⟩, ⟨0, 0, 0, 255⟩] ≠
      [⟨1, 0, 0, 255⟩, ⟨0, 0, 0, 255⟩] := by decide

/-- Claim C3 as amended: the only caller-visible side effect of `Partition` is
reordering the input slice in place: after the call the buffer holds a
permutation of the original elements (their stably sorted order), and the
two returned sequences are exactly the two halves of that buffer. -/
theorem partition_buffer_reorders (P : List Pixel) :
    (PartitionBuffer P).Perm P ∧
    (Partition P).1 ++ (Partition P).2 = PartitionBuffer P := by
  by_cases h : P.length = 0
  · have hP : P = [] := List.length_eq_zero.mp h
    subst hP
    exact ⟨List.Perm.refl _, rfl⟩
  · simp only [PartitionBuffer, Partition, if_neg h]
    exact ⟨List.perm_insertionSort _ P, List.take_append_drop _ _⟩

/-! ### Channel selection and the red→green→blue tie-break -/

/-- Claim C4: for every non-empty pixel set, the sort axis of `Partition` follows
the fixed red→green→blue evaluation order: red whenever red's spread is ≥
both others, otherwise green whenever green's spread is ≥ both others,
otherwise blue; in particular a red/green tie above blue selects red, and
`Partition` splits the sequence sorted on exactly that axis. -/
theorem partition_axis_tiebreak (P : List Pixel) (h : P ≠ []) :
    ((Spread P).1 ≥ (Spread P).2.1 ∧ (Spread P).1 ≥ (Spread P).2.2 →
      partitionAxis P = Channel.red) ∧
    (¬((Spread P).1 ≥ (Spread P).2.1 ∧ (Spread P).1 ≥ (Spread P).2.2) →
      (Spread P).2.1 ≥ (Spread P).1 ∧ (Spread P).2.1 ≥ (Spread P).2.2 →
      partitionAxis P = Channel.green) ∧
    (¬((Spread P).1 ≥ (Spread P).2.1 ∧ (Spread P).1 ≥ (Spread P).2.2) →
      ¬((Spread P).2.1 ≥ (Spread P).1 ∧ (Spread P).2.1 ≥ (Spread P).2.2) →
      partitionAxis P = Channel.blue) ∧
    ((Spread P).1 = (Spread P).2.1 ∧ (Spread P).2.2 < (Spread P).1 →
      partitionAxis P = Channel.red) ∧
    Partition P =
      ((sortPixels (channelValue (partitionAxis P)) P).take (P.length / 2),
       (sortPixels (channelValue (partitionAxis P)) P).drop (P.length / 2)) := by
  have hl : ¬P.length = 0 := fun hc => h (List.length_eq_zero.mp hc)
  refine ⟨?_, ?_, ?_, ?_, ?_⟩
  · intro hc
    unfold partitionAxis selectChannel
    rw [if_pos hc]
  · intro hr hg
    unfold partitionAxis selectChannel
    rw [if_neg hr, if_pos hg]
  · intro hr hg
    unfold partitionAxis selectChannel
    rw [if_neg hr, if_neg hg]
  · intro hc
    unfold partitionAxis selectChannel
    rw [if_pos ⟨Nat.le_of_eq hc.1.symm, Nat.le_of_lt hc.2⟩]
  · simp only [Partition, if_neg hl]

theorem partition_axis_tiebreak_witness :
    partitionAxis [⟨10, 0, 0, 255⟩, ⟨0, 10, 5, 255⟩] = Channel.red :=
  (partition_axis_tiebreak [⟨10, 0, 0, 255⟩, ⟨0, 10, 5, 255⟩]
      (by decide)).2.2.2.1 (by decide)

/-! ### Stability of the sort and the midpoint split -/

lemma filter_orderedInsert (key : Pixel → Nat) (v : Nat) (x : Pixel)
    (l : List Pixel) :
    (List.orderedInsert (keyLe key) x l).filter (fun p => key p == v) =
      if key x = v then x :: l.filter (fun p => key p == v)
      else l.filter (fun p => key p == v) := by
  induction l with
  | nil =>
    by_cases hx : key x = v <;> simp [hx]
  | cons y t ih =>
    by_cases hxy : keyLe key x y
    · rw [List.orderedInsert_of_le _ _ hxy]
      by_cases hx : key x = v <;> simp [List.filter_cons, hx]
    · simp only [List.orderedInsert, if_neg hxy]
      by_cases hy : key y = v
      · have hx : ¬key x = v := by
          intro hc
          exact hxy (by simp [keyLe, hc, hy])
        simp [List.filter_cons, hy, hx, ih]
      · simp [List.filter_cons, hy, ih]

lemma filter_sortPixels (key : Pixel → Nat) (v : Nat) (l : List Pixel) :
    (sortPixels key l).filter (fun p => key p == v) =
      l.filter (fun p => key p == v) := by
  induction l with
  | nil => rfl
  | cons x t ih =>
    simp only [sortPixels, List.insertionSort] at *
    rw [filter_orderedInsert]
    by_cases hx : key x = v <;> simp [List.filter_cons, hx, ih]

/-- Claim C5: `Partition P` returns as left the indices `[0, n/2)` and as right
the indices `[n/2, n)` of the stably-ascending-sorted sequence on the
selected axis (`n/2` by floor division); that sorted sequence is indeed
sorted and stable (for every key value, the pixels carrying it keep their
input order), and for inputs of length ≤ 1 (empty or singleton) the left
set is empty and the right set is the input itself. -/
theorem partition_midpoint_split (P : List Pixel) :
    (Partition P).1 =
      (sortPixels (channelValue (partitionAxis P)) P).take (P.length / 2) ∧
    (Partition P).2 =
      (sortPixels (channelValue (partitionAxis P)) P).drop (P.length / 2) ∧
    List.Sorted (keyLe (channelValue (partitionAxis P)))
      (sortPixels (channelValue (partitionAxis P)) P) ∧
    (∀ v, (sortPixels (channelValue (partitionAxis P)) P).filter
        (fun p => channelValue (partitionAxis P) p == v) =
      P.filter (fun p => channelValue (partitionAxis P) p == v)) ∧
    (P.length ≤ 1 → Partition P = ([], P)) := by
  refine ⟨?_, ?_, ?_, ?_, ?_⟩
  · by_cases h : P.length = 0
    · have hP : P = [] := List.length_eq_zero.mp h
      subst hP
      rfl
    · simp only [Partition, if_neg h]
  · by_cases h : P.length = 0
    · have hP : P = [] := List.length_eq_zero.mp h
      subst hP
      rfl
    · simp only [Partition, if_neg h]
  · exact List.sorted_insertionSort _ P
  · exact fun v => filter_sortPixels _ v P
  · intro h
    match P with
    | [] => rfl
    | [p] => simp [Partition, sortPixels]
    | p :: q :: t => simp at h

theorem partition_midpoint_split_witness :
    Partition [⟨3, 1, 4, 0⟩] = ([], [⟨3, 1, 4, 0⟩]) :=
  (partition_midpoint_split [⟨3, 1, 4, 0⟩]).2.2.2.2 (by decide)

/-! ### Average is the truncated per-channel mean -/

lemma foldl_add_le (key : Pixel → Nat) (l : List Pixel) (acc : Nat)
    (h : ∀ p ∈ l, key p ≤ 255) :
    l.foldl (fun a p => a + key p) acc ≤ acc + 255 * l.length := by
  induction l generalizing acc with
  | nil => simp
  | cons x t ih =>
    simp only [List.foldl_cons, List.length_cons]
    have hx : key x ≤ 255 := h x (List.mem_cons_self x t)
    have ht := ih (acc + key x) (fun p hp => h p (List.mem_cons_of_mem x hp))
    omega

lemma channelTotal_le (key : Pixel → Nat) (l : List Pixel)
    (h : ∀ p ∈ l, key p ≤ 255) :
    channelTotal key l ≤ 255 * l.length := by
  simpa [channelTotal] using foldl_add_le key l 0 h

lemma channelTotal_div_lt (key : Pixel → Nat) (l : List Pixel)
    (hpos : 0 < l.length) (h : ∀ p ∈ l, key p ≤ 255) :
    channelTotal key l / l.length < 256 := by
  rw [Nat.div_lt_iff_lt_mul hpos]
  have hb := channelTotal_le key l h
  have : 255 * l.length < 256 * l.length :=
    (Nat.mul_lt_mul_right hpos).mpr (by omega)
  omega

/-- Claim C6: for every pixel set P whose channels are 8-bit (≤ 255), each
channel of `Average P` is the truncating integer quotient of the channel
sum by the pixel count, and the empty set yields the zero pixel. -/
theorem average_truncated_mean (P : List Pixel)
    (h : ∀ p ∈ P, p.r ≤ 255 ∧ p.g ≤ 255 ∧ p.b ≤ 255) :
    (Average P).r = channelTotal (fun p => p.r) P / P.length ∧
    (Average P).g = channelTotal (fun p => p.g) P / P.length ∧
    (Average P).b = channelTotal (fun p => p.b) P / P.length ∧
    Average ([] : List Pixel) = ⟨0, 0, 0, 255⟩ := by
  by_cases h0 : P.length = 0
  · have hP : P = [] := List.length_eq_zero.mp h0
    subst hP
    refine ⟨?_, ?_, ?_, rfl⟩ <;> rfl
  · have hpos : 0 < P.length := Nat.pos_of_ne_zero h0
    have hr := channelTotal_div_lt (fun p => p.r) P hpos fun p hp => (h p hp).1
    have hg := channelTotal_div_lt (fun p => p.g) P hpos fun p hp => (h p hp).2.1
    have hb := channelTotal_div_lt (fun p => p.b) P hpos fun p hp => (h p hp).2.2
    simp only [Average, if_neg h0]
    exact ⟨Nat.mod_eq_of_lt hr, Nat.mod_eq_of_lt hg, Nat.mod_eq_of_lt hb, rfl⟩

theorem average_truncated_mean_witness :
    ((Average [⟨255, 0, 0, 255⟩, ⟨0, 255, 0, 255⟩, ⟨0, 0, 255, 255⟩]).r =
      channelTotal (fun p => p.r)
          [⟨255, 0, 0, 255⟩, ⟨0, 255, 0, 255⟩, ⟨0, 0, 255, 255⟩] /
        ([⟨255, 0, 0, 255⟩, ⟨0, 255, 0, 255⟩,
          ⟨0, 0, 255, 255⟩] : List Pixel).length) ∧
    Average [⟨255, 0, 0, 255⟩, ⟨0, 255, 0, 255⟩, ⟨0, 0, 255, 255⟩] =
      ⟨85, 85, 85, 255⟩ :=
  ⟨(average_truncated_mean _ (by decide)).1, by decide⟩

/-! ### The alpha channel is never consulted -/

lemma channelValue_normAlpha (c : Channel) (p : Pixel) :
    channelValue c (normAlpha p) = channelValue c p := by
  cases c <;> rfl

lemma spreadStep_normAlpha (s : SpreadState) (p : Pixel) :
    spreadStep s (normAlpha p) = spreadStep s p := rfl

lemma foldl_spreadStep_map (P : List Pixel) (init : SpreadState) :
    (P.map normAlpha).foldl spreadStep init = P.foldl spreadStep init := by
  rw [List.foldl_map]
  simp only [spreadStep_normAlpha]

lemma spread_map_normAlpha (P : List Pixel) :
    Spread (P.map normAlpha) = Spread P := by
  cases P with
  | nil => rfl
  | cons first t =>
    show Spread (normAlpha first :: t.map normAlpha) = Spread (first :: t)
    simp only [Spread]
    rw [show (normAlpha first :: t.map normAlpha) =
        (first :: t).map normAlpha from rfl, foldl_spreadStep_map]
    rfl

lemma channelTotal_map_normAlpha (key : Pixel → Nat)
    (hk : ∀ p, key (normAlpha p) = key p) (P : List Pixel) :
    channelTotal key (P.map normAlpha) = channelTotal key P := by
  simp only [channelTotal]
  rw [List.foldl_map]
  simp only [hk]

lemma average_map_normAlpha (P : List Pixel) :
    Average (P.map normAlpha) = Average P := by
  have hr := channelTotal_map_normAlpha (fun p => p.r) (fun _ => rfl) P
  have hg := channelTotal_map_normAlpha (fun p => p.g) (fun _ => rfl) P
  have hb := channelTotal_map_normAlpha (fun p => p.b) (fun _ => rfl) P
  simp only [Average, List.length_map, hr, hg, hb]

lemma sortPixels_map_normAlpha (key : Pixel → Nat)
    (hk : ∀ p, key (normAlpha p) = key p) (P : List Pixel) :
    sortPixels key (P.map normAlpha) = (sortPixels key P).map normAlpha := by
  simp only [sortPixels]
  exact (List.map_insertionSort (keyLe key) (keyLe key) normAlpha P
    (fun a _ b _ => by simp only [keyLe, hk])).symm

lemma partitionAxis_map_normAlpha (P : List Pixel) :
    partitionAxis (P.map normAlpha) = partitionAxis P := by
  unfold partitionAxis
  rw [spread_map_normAlpha]

lemma partition_map_normAlpha (P : List Pixel) :
    Partition (P.map normAlpha) =
      ((Partition P).1.map normAlpha, (Partition P).2.map normAlpha) := by
  by_cases h : P.length = 0
  · have hP : P = [] := List.length_eq_zero.mp h
    subst hP
    rfl
  · have hm : ¬(P.map normAlpha).length = 0 := by
      simpa [List.length_map] using h
    simp only [Partition, if_neg h, if_neg hm, List.length_map,
      partitionAxis_map_normAlpha,
      sortPixels_map_normAlpha _ (channelValue_normAlpha _),
      List.map_take, List.map_drop]

lemma partitionStep_map_normAlpha (gen : List (List Pixel)) :
    partitionStep (gen.map (List.map normAlpha)) =
      (partitionStep gen).map (List.map normAlpha) := by
  induction gen with
  | nil => rfl
  | cons s t ih =>
    rw [List.map_cons, partitionStep_cons, partitionStep_cons,
      partition_map_normAlpha, List.map_cons, List.map_cons, ih]

lemma iterate_partitionStep_map_normAlpha (n : Nat)
    (gen : List (List Pixel)) :
    Nat.iterate partitionStep n (gen.map (List.map normAlpha)) =
      (Nat.iterate partitionStep n gen).map (List.map normAlpha) := by
  induction n generalizing gen with
  | zero => rfl
  | succ n ih =>
    rw [Function.iterate_succ_apply, Function.iterate_succ_apply,
      partitionStep_map_normAlpha, ih]

lemma pixels_map_normAlpha (P : List Pixel) (L : Int) :
    Pixels (P.map normAlpha) L = Pixels P L := by
  simp only [Pixels]
  rw [show [P.map normAlpha] = [P].map (List.map normAlpha) from rfl,
    iterate_partitionStep_map_normAlpha, List.map_map]
  exact List.map_congr_left fun s _ => average_map_normAlpha s

lemma map_normAlpha_congr {P Q : List Pixel} (h : P.map rgb = Q.map rgb) :
    P.map normAlpha = Q.map normAlpha := by
  have h1 : ∀ l : List Pixel,
      l.map normAlpha =
        (l.map rgb).map fun t => (⟨t.1, t.2.1, t.2.2, 255⟩ : Pixel) := by
    intro l
    rw [List.map_map]
    rfl
  rw [h1 P, h1 Q, h]

/-- Claim C9: the alpha channel is never consulted: for any two pixel sequences
that agree componentwise on red, green and blue (arbitrary alphas) and any
levels value, `Pixels` returns palettes agreeing on red, green and blue,
and the same two-run noninterference holds for `Spread`, `Average` and
`Partition` individually. -/
theorem alpha_noninterference (P Q : List Pixel) (L : Int)
    (h : P.map rgb = Q.map rgb) :
    Spread P = Spread Q ∧
    rgb (Average P) = rgb (Average Q) ∧
    (Partition P).1.map rgb = (Partition Q).1.map rgb ∧
    (Partition P).2.map rgb = (Partition Q).2.map rgb ∧
    (Pixels P L).map rgb = (Pixels Q L).map rgb := by
  have hnorm : P.map normAlpha = Q.map normAlpha := map_normAlpha_congr h
  have hleft : (Partition (P.map normAlpha)).1.map rgb =
      (Partition (Q.map normAlpha)).1.map rgb := by rw [hnorm]
  have hright : (Partition (P.map normAlpha)).2.map rgb =
      (Partition (Q.map normAlpha)).2.map rgb := by rw [hnorm]
  rw [partition_map_normAlpha, partition_map_normAlpha] at hleft hright
  simp only [List.map_map] at hleft hright
  refine ⟨?_, ?_, ?_, ?_, ?_⟩
  · rw [← spread_map_normAlpha P, ← spread_map_normAlpha Q, hnorm]
  · rw [← average_map_normAlpha P, ← average_map_normAlpha Q, hnorm]
  · exact hleft
  · exact hright
  · rw [← pixels_map_normAlpha P L, hnorm, pixels_map_normAlpha]

theorem alpha_noninterference_witness :
    (Pixels [⟨1, 2, 3, 0⟩, ⟨4, 5, 6, 7⟩] 1).map rgb =
      (Pixels [⟨1, 2, 3, 9⟩, ⟨4, 5, 6, 255⟩] 1).map rgb :=
  (alpha_noninterference [⟨1, 2, 3, 0⟩, ⟨4, 5, 6, 7⟩]
      [⟨1, 2, 3, 9⟩, ⟨4, 5, 6, 255⟩] 1 (by decide)).2.2.2.2

end Quantize
